import Mathlib

/-!
A shallow embedding of `src/main.rs` (crate `simple_ast`): a lexer,
a three-level recursive-descent parser, and an indented tree renderer for
arithmetic expressions.

Modelling conventions:
* Rust aborts (invalid character, unexpected token, missing `)`,
  out-of-bounds slice index) are modelled as values of `PanicKind`
  returned through `Except` / `PResult`.
* `i32` arithmetic in the lexer is modelled on `Int` with an explicit
  twos-complement reduction `wrap32` (release-mode wrapping semantics).
* The three mutually recursive parser functions plus their two inner
  `while` loops are defunctionalised into the single fuel-indexed
  function `parseRun`, structurally recursive on the fuel, so that closed
  parses evaluate by `rfl`.  Fuel `3 * tokens.length + 3` is proven
  sufficient (see the termination development below).
* `println!` output of `visualise_ast` is modelled as the list of emitted
  lines.
-/

namespace SimpleAst

/-- `enum Operation { Add, Subtract, Multiply, Divide }` -/
inductive Operation where
  | add
  | subtract
  | multiply
  | divide
  deriving DecidableEq

/-- `enum Token { Number(i32), Operator(Operation), LeftParen, RightParen }` -/
inductive Token where
  | number (value : Int)
  | operator (op : Operation)
  | leftParen
  | rightParen
  deriving DecidableEq

/-- `enum Node { Literal(i32), BinOp(Operation, Box<Node>, Box<Node>) }` -/
inductive Node where
  | literal (value : Int)
  | binOp (op : Operation) (lhs rhs : Node)
  deriving DecidableEq

/-- The distinct ways the Rust program aborts, named after the error
taxonomy (§7):
* `lexicalError c`     — `tokenise`: invalid character `c`;
* `unexpectedToken t`  — `parse_expression` / `parse_factor`: token that
  cannot continue or start the current rule;
* `unterminatedGroup`  — `parse_factor`: present token after a group is
  not `RightParen` (the `Expected ch-rparen` abort);
* `positionOutOfRange` — indexing `tokens[i]` past the end of the slice. -/
inductive PanicKind where
  | lexicalError (c : Char)
  | unexpectedToken (t : Token)
  | unterminatedGroup
  | positionOutOfRange
  deriving DecidableEq

deriving instance DecidableEq for Except

/-- Twos-complement reduction of an unbounded integer into
`[-2^31, 2^31)`: the value an `i32` holds after wrapping arithmetic. -/
def wrap32 (x : Int) : Int := (x + 2 ^ 31) % 2 ^ 32 - 2 ^ 31

/-- `c.to_digit(10).unwrap() as i32` for an ASCII digit `c`. -/
def digitVal (c : Char) : Int := ((c.toNat - 48 : Nat) : Int)

/-- The scanning loop of `tokenise` (src/main.rs lines 29–74), written as a
one-character-per-step automaton so that the recursion is structural.
`acc = some v` means the scanner is inside a digit run whose accumulated
`i32` value is `v` (the inner `while` of lines 33–40); `acc = none` means
it is between tokens.  A digit run ends at the first non-digit, at which
point `Number v` is emitted before the non-digit character is handled. -/
def tokAux : List Char → Option Int → Except PanicKind (List Token)
  | [], none => .ok []
  | [], some v => .ok [Token.number v]
  | c :: rest, acc =>
    if c.isDigit then
      tokAux rest (some (match acc with
        | some v => wrap32 (v * 10 + digitVal c)
        | none => digitVal c))
    else
      let tail : Except PanicKind (List Token) :=
        if c = '+' then (fun ts => Token.operator .add :: ts) <$> tokAux rest none
        else if c = '-' then (fun ts => Token.operator .subtract :: ts) <$> tokAux rest none
        else if c = '*' then (fun ts => Token.operator .multiply :: ts) <$> tokAux rest none
        else if c = '/' then (fun ts => Token.operator .divide :: ts) <$> tokAux rest none
        else if c = '(' then (fun ts => Token.leftParen :: ts) <$> tokAux rest none
        else if c = ')' then (fun ts => Token.rightParen :: ts) <$> tokAux rest none
        else if c.isWhitespace then tokAux rest none
        else .error (.lexicalError c)
      match acc with
      | some v => (fun ts => Token.number v :: ts) <$> tail
      | none => tail

/-- `fn tokenise(input: &str) -> Vec<Token>` (may abort: `Except`). -/
def tokenise (input : String) : Except PanicKind (List Token) :=
  tokAux input.toList none

/-- One pending parser activation: the three grammar levels of
src/main.rs plus the two `while` loops inside `parse_expression` and
`parse_term`, defunctionalised so that all five run inside the single
fuel-indexed interpreter `parseRun`. -/
inductive PCall where
  | factor (index : Nat)
  | term (index : Nat)
  | expr (index : Nat)
  | termLoop (lhs : Node) (next : Nat)
  | exprLoop (lhs : Node) (next : Nat)

/-- `(Node, usize)` result of a parser activation, or the abort it raised.
`outOfFuel` is an artefact of the fuel indexing and is proven unreachable
for fuel `≥ 3 * tokens.length + 3`. -/
inductive PResult where
  | ok (node : Node) (next : Nat)
  | err (e : PanicKind)
  | outOfFuel
  deriving DecidableEq

/-- The parser of src/main.rs lines 79–132.  Each step:
* `.factor i`      — `parse_factor(tokens, i)` (lines 119–132);
* `.term i`        — `parse_term(tokens, i)` (lines 97–98), which runs its
  loop as `.termLoop`;
* `.termLoop l p`  — the `while` loop of lines 100–114 with current
  accumulated `lhs = l` at position `p`;
* `.expr i`        — `parse_expression(tokens, i)` (lines 79–80);
* `.exprLoop l p`  — the `while` loop of lines 82–92.
`tokens[p]?` = `none` encodes the loop guards `next_index < tokens.len()`
failing, and in `.factor` it encodes the out-of-bounds abort of
`tokens[index]`. -/
def parseRun : Nat → List Token → PCall → PResult
  | 0, _, _ => .outOfFuel
  | fuel + 1, tokens, .factor index =>
    match tokens[index]? with
    | none => .err .positionOutOfRange
    | some (.number v) => .ok (.literal v) (index + 1)
    | some .leftParen =>
      match parseRun fuel tokens (.expr (index + 1)) with
      | .ok node next =>
        match tokens[next]? with
        | some .rightParen => .ok node (next + 1)
        | some _ => .err .unterminatedGroup
        | none => .err .positionOutOfRange
      | r => r
    | some t => .err (.unexpectedToken t)
  | fuel + 1, tokens, .term index =>
    match parseRun fuel tokens (.factor index) with
    | .ok lhs next => parseRun fuel tokens (.termLoop lhs next)
    | r => r
  | fuel + 1, tokens, .termLoop lhs next =>
    match tokens[next]? with
    | some (.operator op) =>
      if op = .multiply ∨ op = .divide then
        match parseRun fuel tokens (.factor (next + 1)) with
        | .ok rhs n2 => parseRun fuel tokens (.termLoop (.binOp op lhs rhs) n2)
        | r => r
      else .ok lhs next
    | some _ => .ok lhs next
    | none => .ok lhs next
  | fuel + 1, tokens, .expr index =>
    match parseRun fuel tokens (.term index) with
    | .ok lhs next => parseRun fuel tokens (.exprLoop lhs next)
    | r => r
  | fuel + 1, tokens, .exprLoop lhs next =>
    match tokens[next]? with
    | some (.operator op) =>
      match parseRun fuel tokens (.term (next + 1)) with
      | .ok rhs n2 => parseRun fuel tokens (.exprLoop (.binOp op lhs rhs) n2)
      | r => r
    | some .rightParen => .ok lhs next
    | some t => .err (.unexpectedToken t)
    | none => .ok lhs next

/-- `parse_factor(tokens, index)` at explicit fuel. -/
def parseFactorF (fuel : Nat) (tokens : List Token) (index : Nat) : PResult :=
  parseRun fuel tokens (.factor index)

/-- `parse_term(tokens, index)` at explicit fuel. -/
def parseTermF (fuel : Nat) (tokens : List Token) (index : Nat) : PResult :=
  parseRun fuel tokens (.term index)

/-- `parse_expression(tokens, index)` at explicit fuel. -/
def parseExpressionF (fuel : Nat) (tokens : List Token) (index : Nat) : PResult :=
  parseRun fuel tokens (.expr index)

/-- The `while` loop of `parse_term` at explicit fuel. -/
def termLoopF (fuel : Nat) (tokens : List Token) (lhs : Node) (next : Nat) : PResult :=
  parseRun fuel tokens (.termLoop lhs next)

/-- The `while` loop of `parse_expression` at explicit fuel. -/
def exprLoopF (fuel : Nat) (tokens : List Token) (lhs : Node) (next : Nat) : PResult :=
  parseRun fuel tokens (.exprLoop lhs next)

/-- Fuel sufficient for any parse over `tokens` (proven below). -/
def fuelFor (tokens : List Token) : Nat := 3 * tokens.length + 3

/-- `fn parse_expression(tokens: &[Token], index: usize) -> (Node, usize)`. -/
def parse_expression (tokens : List Token) (index : Nat) : PResult :=
  parseExpressionF (fuelFor tokens) tokens index

/-- `fn parse_term(tokens: &[Token], index: usize) -> (Node, usize)`. -/
def parse_term (tokens : List Token) (index : Nat) : PResult :=
  parseTermF (fuelFor tokens) tokens index

/-- `fn parse_factor(tokens: &[Token], index: usize) -> (Node, usize)`. -/
def parse_factor (tokens : List Token) (index : Nat) : PResult :=
  parseFactorF (fuelFor tokens) tokens index

/-- `fn build_ast(input: &str) -> Node` (src/main.rs lines 134–138):
tokenise, parse an expression from position 0, and discard the final
position.  The `outOfFuel` arm is unreachable (fuel sufficiency is proven
below); it is mapped to the out-of-range abort only to make the function
total. -/
def build_ast (input : String) : Except PanicKind Node :=
  match tokenise input with
  | .error e => .error e
  | .ok tokens =>
    match parse_expression tokens 0 with
    | .ok node _ => .ok node
    | .err e => .error e
    | .outOfFuel => .error .positionOutOfRange

/-- `"|   ".repeat(level)`-style repetition of a string. -/
def repeatStr (s : String) : Nat → String
  | 0 => ""
  | n + 1 => repeatStr s n ++ s

/-- `{:?}` (derived `Debug`) rendering of an `Operation`. -/
def opName : Operation → String
  | .add => "Add"
  | .subtract => "Subtract"
  | .multiply => "Multiply"
  | .divide => "Divide"

/-- `fn visualise_ast(node: &Node, level: usize)` (src/main.rs lines
140–149), with the `println!` calls reified as the list of emitted lines
in emission order. -/
def visualise_ast : Node → Nat → List String
  | .literal value, level =>
    [repeatStr "|   " level ++ "- Literal(" ++ toString value ++ ")"]
  | .binOp op lhs rhs, level =>
    (repeatStr "|   " level ++ "- BinOp(" ++ opName op ++ ")")
      :: (visualise_ast lhs (level + 1) ++ visualise_ast rhs (level + 1))

/-! Specification-side definitions, written from the words of the spec and
of the claims, to be compared with the embedded code above. -/

/-- Modelled from the spec: the mathematical decimal value of a character
sequence, by left-to-right positional accumulation `value = value*10 +
digit` (spec §4.1), with no machine-width reduction. -/
def decimalVal (cs : List Char) : Int :=
  cs.foldl (fun a c => a * 10 + digitVal c) 0

/-- Does the root of the node carry Multiply or Divide?  (Claim C1 speaks
of multiplication/division becoming "the outer node".) -/
def isMulDivRoot : Node → Bool
  | .binOp .multiply _ _ => true
  | .binOp .divide _ _ => true
  | _ => false

/-- Token encoding of the tail of an operator chain: for each pair
`(op, v)` the two tokens `Operator op`, `Number v`. -/
def chainRest : List (Operation × Int) → List Token
  | [] => []
  | p :: ps => Token.operator p.1 :: Token.number p.2 :: chainRest ps

/-- Token encoding of the chain `v₀ op₁ v₁ op₂ v₂ …` (claim C2). -/
def chainTokens (v : Int) (ps : List (Operation × Int)) : List Token :=
  Token.number v :: chainRest ps

/-- Left-associated fold of an operator chain onto an accumulator node:
`chainFoldAux acc [(op₁,v₁),(op₂,v₂)] = BinOp(op₂, BinOp(op₁, acc, v₁), v₂)`. -/
def chainFoldAux : Node → List (Operation × Int) → Node
  | acc, [] => acc
  | acc, p :: ps => chainFoldAux (.binOp p.1 acc (.literal p.2)) ps

/-- Modelled from the spec: the left-associated AST of the chain
`v₀ op₁ v₁ op₂ v₂ …` ("equal-precedence operators group from the left"). -/
def chainFold (v : Int) (ps : List (Operation × Int)) : Node :=
  chainFoldAux (.literal v) ps

/-- Modelled from the spec: the node label named by claim C9 —
`Literal(<value>)` for a leaf, `BinOp(<OperatorName>)` for an internal
node. -/
def nodeLabel : Node → String
  | .literal value => "Literal(" ++ toString value ++ ")"
  | .binOp op _ _ => "BinOp(" ++ opName op ++ ")"

/-- Modelled from the spec: the pre-order traversal of an AST (node before
children, left child before right child), pairing each node with its
nesting depth. -/
def preorderDepths : Node → Nat → List (Node × Nat)
  | .literal value, d => [(.literal value, d)]
  | .binOp op lhs rhs, d =>
    (.binOp op lhs rhs, d)
      :: (preorderDepths lhs (d + 1) ++ preorderDepths rhs (d + 1))

/-- Start position of a parser activation: the `index` argument of the
three grammar levels, or the `next_index` loop variable of the two loops. -/
def callPos : PCall → Nat
  | .factor index => index
  | .term index => index
  | .expr index => index
  | .termLoop _ next => next
  | .exprLoop _ next => next

/-- Position bound guaranteed by a successful activation: the three
grammar levels consume at least one token and never move past the end;
the loops never move backwards and never past the end (unless they
started there). -/
def progressBound (tokens : List Token) (c : PCall) (j : Nat) : Prop :=
  match c with
  | .factor index => index < j ∧ j ≤ tokens.length
  | .term index => index < j ∧ j ≤ tokens.length
  | .expr index => index < j ∧ j ≤ tokens.length
  | .termLoop _ next => next ≤ j ∧ j ≤ max next tokens.length
  | .exprLoop _ next => next ≤ j ∧ j ≤ max next tokens.length

/-- Fuel provably sufficient for one activation (cf. `fuelFor`). -/
def callFuel (tokens : List Token) : PCall → Nat
  | .factor index => 3 * (tokens.length - index) + 1
  | .term index => 3 * (tokens.length - index) + 2
  | .expr index => 3 * (tokens.length - index) + 3
  | .termLoop _ next => 3 * (tokens.length - next) + 1
  | .exprLoop _ next => 3 * (tokens.length - next) + 2

/-! Helper lemmas. -/

theorem getElem?_of_drop_eq {α : Type} {l : List α} {i : Nat} {x : α}
    {rest : List α} (h : l.drop i = x :: rest) : l[i]? = some x := by
  have h0 := List.getElem?_drop l i 0
  rw [h] at h0
  simpa using h0.symm

theorem drop_succ_of_drop_eq {α : Type} {l : List α} {i : Nat} {x : α}
    {rest : List α} (h : l.drop i = x :: rest) : l.drop (i + 1) = rest := by
  have h1 : l.drop (i + 1) = (l.drop i).drop 1 := by rw [List.drop_drop]
  rw [h1, h]
  rfl

theorem length_le_of_drop_eq_nil {α : Type} {l : List α} {i : Nat}
    (h : l.drop i = []) : l.length ≤ i :=
  List.drop_eq_nil_iff.mp h

theorem lt_length_of_getElem?_eq_some {α : Type} {l : List α} {i : Nat}
    {x : α} (h : l[i]? = some x) : i < l.length :=
  (List.getElem?_eq_some.mp h).1

/-- Progress: a successful parser activation respects `progressBound` —
the grammar levels strictly consume at least one token and stay inside
the token sequence, the loops never move backwards. -/
theorem parseRun_progress : ∀ (fuel : Nat) (tokens : List Token) (c : PCall)
    (n : Node) (j : Nat), parseRun fuel tokens c = .ok n j →
    progressBound tokens c j := by
  intro fuel
  induction fuel with
  | zero =>
    intro tokens c n j h
    simp [parseRun] at h
  | succ fuel ih =>
    intro tokens c n j h
    cases c with
    | factor index =>
      cases hidx : tokens[index]? with
      | none => simp [parseRun, hidx] at h
      | some t =>
        cases t with
        | number v =>
          simp only [parseRun, hidx, PResult.ok.injEq] at h
          obtain ⟨rfl, rfl⟩ := h
          exact ⟨Nat.lt_succ_self index, lt_length_of_getElem?_eq_some hidx⟩
        | operator op => simp [parseRun, hidx] at h
        | rightParen => simp [parseRun, hidx] at h
        | leftParen =>
          simp only [parseRun, hidx] at h
          cases hinner : parseRun fuel tokens (.expr (index + 1)) with
          | ok node next =>
            have hp := ih tokens (.expr (index + 1)) node next hinner
            simp only [progressBound] at hp
            rw [hinner] at h
            cases hnext : tokens[next]? with
            | none => simp [hnext] at h
            | some t2 =>
              cases t2 with
              | rightParen =>
                simp only [hnext, PResult.ok.injEq] at h
                obtain ⟨rfl, rfl⟩ := h
                have := lt_length_of_getElem?_eq_some hnext
                exact ⟨by omega, by omega⟩
              | number v => simp [hnext] at h
              | operator op => simp [hnext] at h
              | leftParen => simp [hnext] at h
          | err e => rw [hinner] at h; exact absurd h (by simp)
          | outOfFuel => rw [hinner] at h; exact absurd h (by simp)
    | term index =>
      simp only [parseRun] at h
      cases hfac : parseRun fuel tokens (.factor index) with
      | ok lhs next =>
        rw [hfac] at h
        have hp1 := ih tokens (.factor index) lhs next hfac
        have hp2 := ih tokens (.termLoop lhs next) n j h
        simp only [progressBound] at hp1 hp2 ⊢
        omega
      | err e => rw [hfac] at h; exact absurd h (by simp)
      | outOfFuel => rw [hfac] at h; exact absurd h (by simp)
    | expr index =>
      simp only [parseRun] at h
      cases hterm : parseRun fuel tokens (.term index) with
      | ok lhs next =>
        rw [hterm] at h
        have hp1 := ih tokens (.term index) lhs next hterm
        have hp2 := ih tokens (.exprLoop lhs next) n j h
        simp only [progressBound] at hp1 hp2 ⊢
        omega
      | err e => rw [hterm] at h; exact absurd h (by simp)
      | outOfFuel => rw [hterm] at h; exact absurd h (by simp)
    | termLoop lhs next =>
      cases hidx : tokens[next]? with
      | none =>
        simp only [parseRun, hidx, PResult.ok.injEq] at h
        obtain ⟨rfl, rfl⟩ := h
        simp only [progressBound]
        omega
      | some t =>
        cases t with
        | number v =>
          simp only [parseRun, hidx, PResult.ok.injEq] at h
          obtain ⟨rfl, rfl⟩ := h
          simp only [progressBound]
          omega
        | leftParen =>
          simp only [parseRun, hidx, PResult.ok.injEq] at h
          obtain ⟨rfl, rfl⟩ := h
          simp only [progressBound]
          omega
        | rightParen =>
          simp only [parseRun, hidx, PResult.ok.injEq] at h
          obtain ⟨rfl, rfl⟩ := h
          simp only [progressBound]
          omega
        | operator op =>
          simp only [parseRun, hidx] at h
          by_cases hop : op = Operation.multiply ∨ op = Operation.divide
          · rw [if_pos hop] at h
            cases hfac : parseRun fuel tokens (.factor (next + 1)) with
            | ok rhs n2 =>
              rw [hfac] at h
              have hp1 := ih tokens (.factor (next + 1)) rhs n2 hfac
              have hp2 := ih tokens (.termLoop (.binOp op lhs rhs) n2) n j h
              simp only [progressBound] at hp1 hp2 ⊢
              omega
            | err e => rw [hfac] at h; exact absurd h (by simp)
            | outOfFuel => rw [hfac] at h; exact absurd h (by simp)
          · rw [if_neg hop] at h
            simp only [PResult.ok.injEq] at h
            obtain ⟨rfl, rfl⟩ := h
            simp only [progressBound]
            omega
    | exprLoop lhs next =>
      cases hidx : tokens[next]? with
      | none =>
        simp only [parseRun, hidx, PResult.ok.injEq] at h
        obtain ⟨rfl, rfl⟩ := h
        simp only [progressBound]
        omega
      | some t =>
        cases t with
        | number v => simp [parseRun, hidx] at h
        | leftParen => simp [parseRun, hidx] at h
        | rightParen =>
          simp only [parseRun, hidx, PResult.ok.injEq] at h
          obtain ⟨rfl, rfl⟩ := h
          simp only [progressBound]
          omega
        | operator op =>
          simp only [parseRun, hidx] at h
          cases hterm : parseRun fuel tokens (.term (next + 1)) with
          | ok rhs n2 =>
            rw [hterm] at h
            have hp1 := ih tokens (.term (next + 1)) rhs n2 hterm
            have hp2 := ih tokens (.exprLoop (.binOp op lhs rhs) n2) n j h
            simp only [progressBound] at hp1 hp2 ⊢
            omega
          | err e => rw [hterm] at h; exact absurd h (by simp)
          | outOfFuel => rw [hterm] at h; exact absurd h (by simp)

/-- Fuel sufficiency: with at least `callFuel` fuel an activation never
runs out — every parse step strictly advances the token position, so the
recursion depth is bounded by the number of remaining tokens. -/
theorem parseRun_fuel_sufficient : ∀ (fuel : Nat) (tokens : List Token)
    (c : PCall), callFuel tokens c ≤ fuel →
    parseRun fuel tokens c ≠ .outOfFuel := by
  intro fuel
  induction fuel with
  | zero =>
    intro tokens c hf
    exact absurd hf (by cases c <;> simp [callFuel])
  | succ fuel ih =>
    intro tokens c hf
    cases c with
    | factor index =>
      cases hidx : tokens[index]? with
      | none => simp [parseRun, hidx]
      | some t =>
        cases t with
        | number v => simp [parseRun, hidx]
        | operator op => simp [parseRun, hidx]
        | rightParen => simp [parseRun, hidx]
        | leftParen =>
          have hlt := lt_length_of_getElem?_eq_some hidx
          have hfe : callFuel tokens (.expr (index + 1)) ≤ fuel := by
            simp only [callFuel] at hf ⊢
            omega
          have hne := ih tokens (.expr (index + 1)) hfe
          cases hinner : parseRun fuel tokens (.expr (index + 1)) with
          | ok node next =>
            simp only [parseRun, hidx, hinner]
            cases hnext : tokens[next]? with
            | none => simp
            | some t2 => cases t2 <;> simp
          | err e => simp [parseRun, hidx, hinner]
          | outOfFuel => exact absurd hinner hne
    | term index =>
      have hff : callFuel tokens (.factor index) ≤ fuel := by
        simp only [callFuel] at hf ⊢
        omega
      have hne := ih tokens (.factor index) hff
      cases hfac : parseRun fuel tokens (.factor index) with
      | ok lhs next =>
        have hp := parseRun_progress fuel tokens (.factor index) lhs next hfac
        simp only [progressBound] at hp
        have hfl : callFuel tokens (.termLoop lhs next) ≤ fuel := by
          simp only [callFuel] at hf ⊢
          omega
        simp only [parseRun, hfac]
        exact ih tokens (.termLoop lhs next) hfl
      | err e => simp [parseRun, hfac]
      | outOfFuel => exact absurd hfac hne
    | expr index =>
      have hft : callFuel tokens (.term index) ≤ fuel := by
        simp only [callFuel] at hf ⊢
        omega
      have hne := ih tokens (.term index) hft
      cases hterm : parseRun fuel tokens (.term index) with
      | ok lhs next =>
        have hp := parseRun_progress fuel tokens (.term index) lhs next hterm
        simp only [progressBound] at hp
        have hfl : callFuel tokens (.exprLoop lhs next) ≤ fuel := by
          simp only [callFuel] at hf ⊢
          omega
        simp only [parseRun, hterm]
        exact ih tokens (.exprLoop lhs next) hfl
      | err e => simp [parseRun, hterm]
      | outOfFuel => exact absurd hterm hne
    | termLoop lhs next =>
      cases hidx : tokens[next]? with
      | none => simp [parseRun, hidx]
      | some t =>
        cases t with
        | number v => simp [parseRun, hidx]
        | leftParen => simp [parseRun, hidx]
        | rightParen => simp [parseRun, hidx]
        | operator op =>
          by_cases hop : op = Operation.multiply ∨ op = Operation.divide
          · have hlt := lt_length_of_getElem?_eq_some hidx
            have hff : callFuel tokens (.factor (next + 1)) ≤ fuel := by
              simp only [callFuel] at hf ⊢
              omega
            have hne := ih tokens (.factor (next + 1)) hff
            cases hfac : parseRun fuel tokens (.factor (next + 1)) with
            | ok rhs n2 =>
              have hp := parseRun_progress fuel tokens (.factor (next + 1)) rhs n2 hfac
              simp only [progressBound] at hp
              have hfl : callFuel tokens (.termLoop (.binOp op lhs rhs) n2) ≤ fuel := by
                simp only [callFuel] at hf ⊢
                omega
              simp only [parseRun, hidx, if_pos hop, hfac]
              exact ih tokens (.termLoop (.binOp op lhs rhs) n2) hfl
            | err e => simp [parseRun, hidx, if_pos hop, hfac]
            | outOfFuel => exact absurd hfac hne
          · simp [parseRun, hidx, if_neg hop]
    | exprLoop lhs next =>
      cases hidx : tokens[next]? with
      | none => simp [parseRun, hidx]
      | some t =>
        cases t with
        | number v => simp [parseRun, hidx]
        | leftParen => simp [parseRun, hidx]
        | rightParen => simp [parseRun, hidx]
        | operator op =>
          have hlt := lt_length_of_getElem?_eq_some hidx
          have hft : callFuel tokens (.term (next + 1)) ≤ fuel := by
            simp only [callFuel] at hf ⊢
            omega
          have hne := ih tokens (.term (next + 1)) hft
          cases hterm : parseRun fuel tokens (.term (next + 1)) with
          | ok rhs n2 =>
            have hp := parseRun_progress fuel tokens (.term (next + 1)) rhs n2 hterm
            simp only [progressBound] at hp
            have hfl : callFuel tokens (.exprLoop (.binOp op lhs rhs) n2) ≤ fuel := by
              simp only [callFuel] at hf ⊢
              omega
            simp only [parseRun, hidx, hterm]
            exact ih tokens (.exprLoop (.binOp op lhs rhs) n2) hfl
          | err e => simp [parseRun, hidx, hterm]
          | outOfFuel => exact absurd hterm hne

/-- The term-level loop only stops at a token that is not `*` and not `/`
(or at the end of input): it consumes every contiguous
multiplication/division chain before returning. -/
theorem termLoop_stop : ∀ (fuel : Nat) (tokens : List Token) (lhs : Node)
    (p : Nat) (n : Node) (j : Nat),
    parseRun fuel tokens (.termLoop lhs p) = .ok n j →
    tokens[j]? ≠ some (.operator .multiply) ∧
      tokens[j]? ≠ some (.operator .divide) := by
  intro fuel
  induction fuel with
  | zero =>
    intro tokens lhs p n j h
    simp [parseRun] at h
  | succ fuel ih =>
    intro tokens lhs p n j h
    cases hidx : tokens[p]? with
    | none =>
      simp only [parseRun, hidx, PResult.ok.injEq] at h
      obtain ⟨rfl, rfl⟩ := h
      simp [hidx]
    | some t =>
      cases t with
      | number v =>
        simp only [parseRun, hidx, PResult.ok.injEq] at h
        obtain ⟨rfl, rfl⟩ := h
        simp [hidx]
      | leftParen =>
        simp only [parseRun, hidx, PResult.ok.injEq] at h
        obtain ⟨rfl, rfl⟩ := h
        simp [hidx]
      | rightParen =>
        simp only [parseRun, hidx, PResult.ok.injEq] at h
        obtain ⟨rfl, rfl⟩ := h
        simp [hidx]
      | operator op =>
        by_cases hop : op = Operation.multiply ∨ op = Operation.divide
        · simp only [parseRun, hidx, if_pos hop] at h
          cases hfac : parseRun fuel tokens (.factor (p + 1)) with
          | ok rhs n2 =>
            rw [hfac] at h
            exact ih tokens (.binOp op lhs rhs) n2 n j h
          | err e => rw [hfac] at h; exact absurd h (by simp)
          | outOfFuel => rw [hfac] at h; exact absurd h (by simp)
        · simp only [parseRun, hidx, if_neg hop, PResult.ok.injEq] at h
          obtain ⟨rfl, rfl⟩ := h
          push_neg at hop
          simp [hidx, hop.1, hop.2]

/-- `parse_term` only returns at a token that is not `*` and not `/` (or
at the end of input). -/
theorem parseTerm_stop : ∀ (fuel : Nat) (tokens : List Token) (i : Nat)
    (n : Node) (j : Nat), parseRun fuel tokens (.term i) = .ok n j →
    tokens[j]? ≠ some (.operator .multiply) ∧
      tokens[j]? ≠ some (.operator .divide) := by
  intro fuel tokens i n j h
  cases fuel with
  | zero => simp [parseRun] at h
  | succ fuel =>
    simp only [parseRun] at h
    cases hfac : parseRun fuel tokens (.factor i) with
    | ok lhs next =>
      rw [hfac] at h
      exact termLoop_stop fuel tokens lhs next n j h
    | err e => rw [hfac] at h; exact absurd h (by simp)
    | outOfFuel => rw [hfac] at h; exact absurd h (by simp)

/-- If the expression-level loop starts at a position that does not hold
`*` or `/` (which is how `parse_term` always leaves it) and its result
has a Multiply/Divide root, then the loop did not fold at all: the result
is exactly the incoming left-hand side. -/
theorem exprLoop_mulDivRoot : ∀ (fuel : Nat) (tokens : List Token)
    (lhs : Node) (p : Nat) (n : Node) (j : Nat),
    parseRun fuel tokens (.exprLoop lhs p) = .ok n j →
    tokens[p]? ≠ some (.operator .multiply) →
    tokens[p]? ≠ some (.operator .divide) →
    isMulDivRoot n = true → n = lhs ∧ j = p := by
  intro fuel
  induction fuel with
  | zero =>
    intro tokens lhs p n j h
    simp [parseRun] at h
  | succ fuel ih =>
    intro tokens lhs p n j h hm hd hroot
    cases hidx : tokens[p]? with
    | none =>
      simp only [parseRun, hidx, PResult.ok.injEq] at h
      exact ⟨h.1.symm, h.2.symm⟩
    | some t =>
      cases t with
      | number v => simp [parseRun, hidx] at h
      | leftParen => simp [parseRun, hidx] at h
      | rightParen =>
        simp only [parseRun, hidx, PResult.ok.injEq] at h
        exact ⟨h.1.symm, h.2.symm⟩
      | operator op =>
        rw [hidx] at hm hd
        have hopm : op ≠ Operation.multiply := by
          intro he
          exact hm (by rw [he])
        have hopd : op ≠ Operation.divide := by
          intro he
          exact hd (by rw [he])
        simp only [parseRun, hidx] at h
        cases hterm : parseRun fuel tokens (.term (p + 1)) with
        | ok rhs n2 =>
          rw [hterm] at h
          have hstop := parseTerm_stop fuel tokens (p + 1) rhs n2 hterm
          obtain ⟨rfl, rfl⟩ := ih tokens (.binOp op lhs rhs) n2 n j h hstop.1 hstop.2 hroot
          cases op with
          | add => simp [isMulDivRoot] at hroot
          | subtract => simp [isMulDivRoot] at hroot
          | multiply => exact absurd rfl hopm
          | divide => exact absurd rfl hopd
        | err e => rw [hterm] at h; exact absurd h (by simp)
        | outOfFuel => rw [hterm] at h; exact absurd h (by simp)

/-- If `parse_expression` succeeds with a Multiply/Divide root, the whole
result came from the single initial `parse_term` call: no
expression-level fold produced it. -/
theorem parseExpression_mulDivRoot (fuel : Nat) (tokens : List Token)
    (i : Nat) (n : Node) (j : Nat)
    (h : parseExpressionF (fuel + 1) tokens i = .ok n j)
    (hroot : isMulDivRoot n = true) : parseTermF fuel tokens i = .ok n j := by
  simp only [parseExpressionF, parseRun] at h
  cases hterm : parseRun fuel tokens (.term i) with
  | ok lhs next =>
    rw [hterm] at h
    have hstop := parseTerm_stop fuel tokens i lhs next hterm
    obtain ⟨rfl, rfl⟩ := exprLoop_mulDivRoot fuel tokens lhs next n j h
      hstop.1 hstop.2 hroot
    exact hterm
  | err e => rw [hterm] at h; exact absurd h (by simp)
  | outOfFuel => rw [hterm] at h; exact absurd h (by simp)

/-- `parse_expression` only returns at the end of the token sequence or
at a `RightParen`: its loop aborts on any other token. -/
theorem exprLoop_ret : ∀ (fuel : Nat) (tokens : List Token) (lhs : Node)
    (p : Nat) (n : Node) (j : Nat),
    parseRun fuel tokens (.exprLoop lhs p) = .ok n j →
    tokens.length ≤ j ∨ tokens[j]? = some .rightParen := by
  intro fuel
  induction fuel with
  | zero =>
    intro tokens lhs p n j h
    simp [parseRun] at h
  | succ fuel ih =>
    intro tokens lhs p n j h
    cases hidx : tokens[p]? with
    | none =>
      simp only [parseRun, hidx, PResult.ok.injEq] at h
      obtain ⟨rfl, rfl⟩ := h
      exact Or.inl (by simpa using List.getElem?_eq_none_iff.mp hidx)
    | some t =>
      cases t with
      | number v => simp [parseRun, hidx] at h
      | leftParen => simp [parseRun, hidx] at h
      | rightParen =>
        simp only [parseRun, hidx, PResult.ok.injEq] at h
        obtain ⟨rfl, rfl⟩ := h
        exact Or.inr hidx
      | operator op =>
        simp only [parseRun, hidx] at h
        cases hterm : parseRun fuel tokens (.term (p + 1)) with
        | ok rhs n2 =>
          rw [hterm] at h
          exact ih tokens (.binOp op lhs rhs) n2 n j h
        | err e => rw [hterm] at h; exact absurd h (by simp)
        | outOfFuel => rw [hterm] at h; exact absurd h (by simp)

/-- A successful `parse_expression` stops at the end of the tokens or at
a `RightParen`. -/
theorem parseExpression_ret (fuel : Nat) (tokens : List Token) (i : Nat)
    (n : Node) (j : Nat) (h : parseExpressionF fuel tokens i = .ok n j) :
    tokens.length ≤ j ∨ tokens[j]? = some .rightParen := by
  cases fuel with
  | zero => simp [parseExpressionF, parseRun] at h
  | succ fuel =>
    simp only [parseExpressionF, parseRun] at h
    cases hterm : parseRun fuel tokens (.term i) with
    | ok lhs next =>
      rw [hterm] at h
      exact exprLoop_ret fuel tokens lhs next n j h
    | err e => rw [hterm] at h; exact absurd h (by simp)
    | outOfFuel => rw [hterm] at h; exact absurd h (by simp)

/-- The `Expected ')'`-style abort (`unterminatedGroup`) is unreachable:
since `parse_expression` only returns at end of input or at a
`RightParen`, the token `parse_factor` inspects after a group, when it
exists at all, is always a `RightParen` — a missing one surfaces as
`positionOutOfRange` instead. -/
theorem parseRun_no_unterminatedGroup : ∀ (fuel : Nat) (tokens : List Token)
    (c : PCall), parseRun fuel tokens c ≠ .err .unterminatedGroup := by
  intro fuel
  induction fuel with
  | zero =>
    intro tokens c
    simp [parseRun]
  | succ fuel ih =>
    intro tokens c
    cases c with
    | factor index =>
      cases hidx : tokens[index]? with
      | none => simp [parseRun, hidx]
      | some t =>
        cases t with
        | number v => simp [parseRun, hidx]
        | operator op => simp [parseRun, hidx]
        | rightParen => simp [parseRun, hidx]
        | leftParen =>
          cases hinner : parseRun fuel tokens (.expr (index + 1)) with
          | ok node next =>
            have hret := parseExpression_ret fuel tokens (index + 1) node next
              (by simpa [parseExpressionF] using hinner)
            cases hret with
            | inl hlen =>
              have hnone : tokens[next]? = none := List.getElem?_eq_none hlen
              simp [parseRun, hidx, hinner, hnone]
            | inr hrp => simp [parseRun, hidx, hinner, hrp]
          | err e =>
            have hne := ih tokens (.expr (index + 1))
            rw [hinner] at hne
            simp only [parseRun, hidx, hinner]
            simpa using hne
          | outOfFuel => simp [parseRun, hidx, hinner]
    | term index =>
      cases hfac : parseRun fuel tokens (.factor index) with
      | ok lhs next =>
        simp only [parseRun, hfac]
        exact ih tokens (.termLoop lhs next)
      | err e =>
        have hne := ih tokens (.factor index)
        rw [hfac] at hne
        simp only [parseRun, hfac]
        simpa using hne
      | outOfFuel => simp [parseRun, hfac]
    | expr index =>
      cases hterm : parseRun fuel tokens (.term index) with
      | ok lhs next =>
        simp only [parseRun, hterm]
        exact ih tokens (.exprLoop lhs next)
      | err e =>
        have hne := ih tokens (.term index)
        rw [hterm] at hne
        simp only [parseRun, hterm]
        simpa using hne
      | outOfFuel => simp [parseRun, hterm]
    | termLoop lhs next =>
      cases hidx : tokens[next]? with
      | none => simp [parseRun, hidx]
      | some t =>
        cases t with
        | number v => simp [parseRun, hidx]
        | leftParen => simp [parseRun, hidx]
        | rightParen => simp [parseRun, hidx]
        | operator op =>
          by_cases hop : op = Operation.multiply ∨ op = Operation.divide
          · cases hfac : parseRun fuel tokens (.factor (next + 1)) with
            | ok rhs n2 =>
              simp only [parseRun, hidx, if_pos hop, hfac]
              exact ih tokens (.termLoop (.binOp op lhs rhs) n2)
            | err e =>
              have hne := ih tokens (.factor (next + 1))
              rw [hfac] at hne
              simp only [parseRun, hidx, if_pos hop, hfac]
              simpa using hne
            | outOfFuel => simp [parseRun, hidx, if_pos hop, hfac]
          · simp [parseRun, hidx, if_neg hop]
    | exprLoop lhs next =>
      cases hidx : tokens[next]? with
      | none => simp [parseRun, hidx]
      | some t =>
        cases t with
        | number v => simp [parseRun, hidx]
        | leftParen => simp [parseRun, hidx]
        | rightParen => simp [parseRun, hidx]
        | operator op =>
          cases hterm : parseRun fuel tokens (.term (next + 1)) with
          | ok rhs n2 =>
            simp only [parseRun, hidx, hterm]
            exact ih tokens (.exprLoop (.binOp op lhs rhs) n2)
          | err e =>
            have hne := ih tokens (.term (next + 1))
            rw [hterm] at hne
            simp only [parseRun, hidx, hterm]
            simpa using hne
          | outOfFuel => simp [parseRun, hidx, hterm]

/-! One-step unfolding equations for `parseRun`, used to drive concrete
and symbolic evaluation without unfolding inner calls prematurely. -/

theorem parseRun_factor_unfold (fuel : Nat) (tokens : List Token)
    (index : Nat) :
    parseRun (fuel + 1) tokens (.factor index) =
      match tokens[index]? with
      | none => .err .positionOutOfRange
      | some (.number v) => .ok (.literal v) (index + 1)
      | some .leftParen =>
        match parseRun fuel tokens (.expr (index + 1)) with
        | .ok node next =>
          match tokens[next]? with
          | some .rightParen => .ok node (next + 1)
          | some _ => .err .unterminatedGroup
          | none => .err .positionOutOfRange
        | r => r
      | some t => .err (.unexpectedToken t) := rfl

theorem parseRun_term_unfold (fuel : Nat) (tokens : List Token)
    (index : Nat) :
    parseRun (fuel + 1) tokens (.term index) =
      match parseRun fuel tokens (.factor index) with
      | .ok lhs next => parseRun fuel tokens (.termLoop lhs next)
      | r => r := rfl

theorem parseRun_expr_unfold (fuel : Nat) (tokens : List Token)
    (index : Nat) :
    parseRun (fuel + 1) tokens (.expr index) =
      match parseRun fuel tokens (.term index) with
      | .ok lhs next => parseRun fuel tokens (.exprLoop lhs next)
      | r => r := rfl

theorem parseRun_termLoop_unfold (fuel : Nat) (tokens : List Token)
    (lhs : Node) (next : Nat) :
    parseRun (fuel + 1) tokens (.termLoop lhs next) =
      match tokens[next]? with
      | some (.operator op) =>
        if op = .multiply ∨ op = .divide then
          match parseRun fuel tokens (.factor (next + 1)) with
          | .ok rhs n2 => parseRun fuel tokens (.termLoop (.binOp op lhs rhs) n2)
          | r => r
        else .ok lhs next
      | some _ => .ok lhs next
      | none => .ok lhs next := rfl

theorem parseRun_exprLoop_unfold (fuel : Nat) (tokens : List Token)
    (lhs : Node) (next : Nat) :
    parseRun (fuel + 1) tokens (.exprLoop lhs next) =
      match tokens[next]? with
      | some (.operator op) =>
        match parseRun fuel tokens (.term (next + 1)) with
        | .ok rhs n2 => parseRun fuel tokens (.exprLoop (.binOp op lhs rhs) n2)
        | r => r
      | some .rightParen => .ok lhs next
      | some t => .err (.unexpectedToken t)
      | none => .ok lhs next := rfl

/-! Chain lemmas: the parser on a flat chain of literals joined by
equal-precedence operators folds from the left. -/

theorem chainRest_length : ∀ (ps : List (Operation × Int)),
    (chainRest ps).length = 2 * ps.length := by
  intro ps
  induction ps with
  | nil => rfl
  | cons q ps ih => simp [chainRest, ih]; omega

theorem chainTokens_length (v : Int) (ps : List (Operation × Int)) :
    (chainTokens v ps).length = 2 * ps.length + 1 := by
  simp [chainTokens, chainRest_length]

/-- A `parse_term` whose first token is a number and whose second token
is not `*`/`/` returns just that literal, advancing one position. -/
theorem parseTerm_number (fuel : Nat) (tokens : List Token) (p : Nat)
    (w : Int) (hf : 2 ≤ fuel) (hp : tokens[p]? = some (.number w))
    (hm : tokens[p + 1]? ≠ some (.operator .multiply))
    (hd : tokens[p + 1]? ≠ some (.operator .divide)) :
    parseRun fuel tokens (.term p) = .ok (.literal w) (p + 1) := by
  obtain ⟨g, rfl⟩ : ∃ g, fuel = g + 1 + 1 := ⟨fuel - 2, by omega⟩
  have hfac : parseRun (g + 1) tokens (.factor p) = .ok (.literal w) (p + 1) := by
    rw [parseRun_factor_unfold, hp]
  have h1 : parseRun (g + 1 + 1) tokens (.term p) =
      parseRun (g + 1) tokens (.termLoop (.literal w) (p + 1)) := by
    rw [parseRun_term_unfold, hfac]
  rw [h1]
  cases hnext : tokens[p + 1]? with
  | none => rw [parseRun_termLoop_unfold, hnext]
  | some t =>
    cases t with
    | number v => rw [parseRun_termLoop_unfold, hnext]
    | leftParen => rw [parseRun_termLoop_unfold, hnext]
    | rightParen => rw [parseRun_termLoop_unfold, hnext]
    | operator op =>
      rw [hnext] at hm hd
      have hop : ¬(op = Operation.multiply ∨ op = Operation.divide) := by
        rintro (rfl | rfl)
        · exact hm rfl
        · exact hd rfl
      rw [parseRun_termLoop_unfold, hnext]
      show (if op = Operation.multiply ∨ op = Operation.divide then
          match parseRun g tokens (.factor (p + 1 + 1)) with
          | .ok rhs n2 =>
            parseRun g tokens (.termLoop (.binOp op (.literal w) rhs) n2)
          | r => r
        else .ok (.literal w) (p + 1)) = _
      rw [if_neg hop]

/-- The term-level loop consumes an entire `*`/`/` chain of literals,
folding it left-associatively onto the incoming left-hand side. -/
theorem termLoop_chain : ∀ (ps : List (Operation × Int)) (fuel : Nat)
    (tokens : List Token) (lhs : Node) (p : Nat),
    (∀ q ∈ ps, q.1 = Operation.multiply ∨ q.1 = Operation.divide) →
    tokens.drop p = chainRest ps →
    2 * ps.length + 1 ≤ fuel →
    parseRun fuel tokens (.termLoop lhs p) =
      .ok (chainFoldAux lhs ps) (p + 2 * ps.length) := by
  intro ps
  induction ps with
  | nil =>
    intro fuel tokens lhs p _ hdrop hf
    obtain ⟨g, rfl⟩ : ∃ g, fuel = g + 1 := ⟨fuel - 1, by omega⟩
    have hnone : tokens[p]? = none :=
      List.getElem?_eq_none (length_le_of_drop_eq_nil hdrop)
    rw [parseRun_termLoop_unfold, hnone]
    simp [chainFoldAux]
  | cons q ps ih =>
    intro fuel tokens lhs p hops hdrop hf
    obtain ⟨g, rfl⟩ : ∃ g, fuel = g + 1 + 1 := ⟨fuel - 2, by simp at hf; omega⟩
    simp only [chainRest] at hdrop
    have h1 : tokens[p]? = some (.operator q.1) := getElem?_of_drop_eq hdrop
    have hdrop2 := drop_succ_of_drop_eq hdrop
    have h2 : tokens[p + 1]? = some (.number q.2) := getElem?_of_drop_eq hdrop2
    have hdrop3 := drop_succ_of_drop_eq hdrop2
    have hop : q.1 = Operation.multiply ∨ q.1 = Operation.divide :=
      hops q (List.mem_cons_self q ps)
    have hfac : parseRun (g + 1) tokens (.factor (p + 1)) =
        .ok (.literal q.2) (p + 1 + 1) := by
      rw [parseRun_factor_unfold, h2]
    have hstep : parseRun (g + 1 + 1) tokens (.termLoop lhs p) =
        parseRun (g + 1) tokens
          (.termLoop (.binOp q.1 lhs (.literal q.2)) (p + 1 + 1)) := by
      rw [parseRun_termLoop_unfold, h1]
      show (if q.1 = Operation.multiply ∨ q.1 = Operation.divide then
          match parseRun (g + 1) tokens (.factor (p + 1)) with
          | .ok rhs n2 =>
            parseRun (g + 1) tokens (.termLoop (.binOp q.1 lhs rhs) n2)
          | r => r
        else .ok lhs p) = _
      rw [if_pos hop, hfac]
    have hrest := ih (g + 1) tokens (.binOp q.1 lhs (.literal q.2)) (p + 1 + 1)
      (fun r hr => hops r (List.mem_cons_of_mem q hr)) hdrop3
      (by simp at hf; omega)
    rw [hstep, hrest]
    simp only [chainFoldAux, List.length_cons, PResult.ok.injEq, true_and]
    omega

/-- The expression-level loop consumes an entire `+`/`-` chain of
literals, folding it left-associatively onto the incoming left-hand
side. -/
theorem exprLoop_chain : ∀ (ps : List (Operation × Int)) (fuel : Nat)
    (tokens : List Token) (lhs : Node) (p : Nat),
    (∀ q ∈ ps, q.1 = Operation.add ∨ q.1 = Operation.subtract) →
    tokens.drop p = chainRest ps →
    3 * ps.length + 1 ≤ fuel →
    parseRun fuel tokens (.exprLoop lhs p) =
      .ok (chainFoldAux lhs ps) (p + 2 * ps.length) := by
  intro ps
  induction ps with
  | nil =>
    intro fuel tokens lhs p _ hdrop hf
    obtain ⟨g, rfl⟩ : ∃ g, fuel = g + 1 := ⟨fuel - 1, by omega⟩
    have hnone : tokens[p]? = none :=
      List.getElem?_eq_none (length_le_of_drop_eq_nil hdrop)
    rw [parseRun_exprLoop_unfold, hnone]
    simp [chainFoldAux]
  | cons q ps ih =>
    intro fuel tokens lhs p hops hdrop hf
    obtain ⟨g, rfl⟩ : ∃ g, fuel = g + 1 := ⟨fuel - 1, by simp at hf; omega⟩
    simp only [chainRest] at hdrop
    have h1 : tokens[p]? = some (.operator q.1) := getElem?_of_drop_eq hdrop
    have hdrop2 := drop_succ_of_drop_eq hdrop
    have h2 : tokens[p + 1]? = some (.number q.2) := getElem?_of_drop_eq hdrop2
    have hdrop3 := drop_succ_of_drop_eq hdrop2
    have hboundary : tokens[p + 1 + 1]? ≠ some (.operator .multiply) ∧
        tokens[p + 1 + 1]? ≠ some (.operator .divide) := by
      cases ps with
      | nil =>
        have hnone : tokens[p + 1 + 1]? = none :=
          List.getElem?_eq_none (length_le_of_drop_eq_nil hdrop3)
        simp [hnone]
      | cons r rs =>
        simp only [chainRest] at hdrop3
        have h3 : tokens[p + 1 + 1]? = some (.operator r.1) :=
          getElem?_of_drop_eq hdrop3
        have hr : r.1 = Operation.add ∨ r.1 = Operation.subtract :=
          hops r (List.mem_cons_of_mem q (List.mem_cons_self r rs))
        cases hr with
        | inl h => simp [h3, h]
        | inr h => simp [h3, h]
    have hterm : parseRun g tokens (.term (p + 1)) =
        .ok (.literal q.2) (p + 1 + 1) :=
      parseTerm_number g tokens (p + 1) q.2 (by simp at hf; omega) h2
        hboundary.1 hboundary.2
    have hstep : parseRun (g + 1) tokens (.exprLoop lhs p) =
        parseRun g tokens
          (.exprLoop (.binOp q.1 lhs (.literal q.2)) (p + 1 + 1)) := by
      rw [parseRun_exprLoop_unfold, h1, hterm]
    have hrest := ih g tokens (.binOp q.1 lhs (.literal q.2)) (p + 1 + 1)
      (fun r hr => hops r (List.mem_cons_of_mem q hr)) hdrop3
      (by simp at hf; omega)
    rw [hstep, hrest]
    simp only [chainFoldAux, List.length_cons, PResult.ok.injEq, true_and]
    omega

/-- `parse_expression` on a pure addition/subtraction chain of literals
returns the left-associated fold and consumes every token. -/
theorem parseExpression_chain_addsub (v : Int) (ps : List (Operation × Int))
    (hops : ∀ q ∈ ps, q.1 = Operation.add ∨ q.1 = Operation.subtract) :
    parse_expression (chainTokens v ps) 0 =
      .ok (chainFold v ps) (chainTokens v ps).length := by
  have hlen := chainTokens_length v ps
  have hdrop1 : (chainTokens v ps).drop 1 = chainRest ps := by
    simp [chainTokens]
  have h0 : (chainTokens v ps)[0]? = some (.number v) := by
    simp [chainTokens]
  have h1nm : (chainTokens v ps)[1]? ≠ some (.operator .multiply) ∧
      (chainTokens v ps)[1]? ≠ some (.operator .divide) := by
    cases ps with
    | nil =>
      have hnone : (chainTokens v ([] : List (Operation × Int)))[1]? = none :=
        List.getElem?_eq_none (by simp [chainTokens, chainRest])
      simp [hnone]
    | cons r rs =>
      have hd1 : (chainTokens v (r :: rs)).drop 1 =
          Token.operator r.1 :: Token.number r.2 :: chainRest rs := by
        simp [chainTokens, chainRest]
      have h3 : (chainTokens v (r :: rs))[1]? = some (.operator r.1) :=
        getElem?_of_drop_eq hd1
      rcases hops r (List.mem_cons_self r rs) with h | h <;> simp [h3, h]
  obtain ⟨g, hg⟩ : ∃ g, fuelFor (chainTokens v ps) = g + 1 :=
    ⟨3 * (chainTokens v ps).length + 2, by simp [fuelFor]⟩
  have hgval : g = 3 * (chainTokens v ps).length + 2 := by
    simp only [fuelFor] at hg
    omega
  have hterm : parseRun g (chainTokens v ps) (.term 0) =
      .ok (.literal v) 1 :=
    parseTerm_number g (chainTokens v ps) 0 v (by omega) h0 h1nm.1 h1nm.2
  have hloop := exprLoop_chain ps g (chainTokens v ps) (.literal v) 1 hops
    hdrop1 (by omega)
  show parseExpressionF (fuelFor (chainTokens v ps)) (chainTokens v ps) 0 = _
  rw [hg]
  simp only [parseExpressionF]
  rw [parseRun_expr_unfold, hterm]
  show parseRun g (chainTokens v ps) (.exprLoop (.literal v) 1) = _
  rw [hloop]
  simp only [chainFold, PResult.ok.injEq, true_and]
  omega

/-- `parse_expression` on a pure multiplication/division chain of
literals returns the left-associated fold (built entirely by the term
level) and consumes every token. -/
theorem parseExpression_chain_muldiv (v : Int) (ps : List (Operation × Int))
    (hops : ∀ q ∈ ps, q.1 = Operation.multiply ∨ q.1 = Operation.divide) :
    parse_expression (chainTokens v ps) 0 =
      .ok (chainFold v ps) (chainTokens v ps).length := by
  have hlen := chainTokens_length v ps
  have hdrop1 : (chainTokens v ps).drop 1 = chainRest ps := by
    simp [chainTokens]
  have h0 : (chainTokens v ps)[0]? = some (.number v) := by
    simp [chainTokens]
  obtain ⟨g, hg⟩ : ∃ g, fuelFor (chainTokens v ps) = g + 1 + 1 + 1 :=
    ⟨3 * (chainTokens v ps).length, by simp [fuelFor]⟩
  have hgval : g = 3 * (chainTokens v ps).length := by
    simp only [fuelFor] at hg
    omega
  have hfac : parseRun (g + 1) (chainTokens v ps) (.factor 0) =
      .ok (.literal v) 1 := by
    rw [parseRun_factor_unfold, h0]
  have htermstep : parseRun (g + 1 + 1) (chainTokens v ps) (.term 0) =
      parseRun (g + 1) (chainTokens v ps) (.termLoop (.literal v) 1) := by
    rw [parseRun_term_unfold, hfac]
  have hloop := termLoop_chain ps (g + 1) (chainTokens v ps) (.literal v) 1
    hops hdrop1 (by omega)
  have hexitpos : (chainTokens v ps).length ≤ 1 + 2 * ps.length := by omega
  have hnone : (chainTokens v ps)[1 + 2 * ps.length]? = none :=
    List.getElem?_eq_none hexitpos
  have hexit : parseRun (g + 1 + 1) (chainTokens v ps)
      (.exprLoop (chainFoldAux (.literal v) ps) (1 + 2 * ps.length)) =
      .ok (chainFoldAux (.literal v) ps) (1 + 2 * ps.length) := by
    rw [parseRun_exprLoop_unfold, hnone]
  show parseExpressionF (fuelFor (chainTokens v ps)) (chainTokens v ps) 0 = _
  rw [hg]
  simp only [parseExpressionF]
  rw [parseRun_expr_unfold, htermstep, hloop]
  show parseRun (g + 1 + 1) (chainTokens v ps)
    (.exprLoop (chainFoldAux (.literal v) ps) (1 + 2 * ps.length)) = _
  rw [hexit]
  simp only [chainFold, PResult.ok.injEq, true_and]
  omega

/-! Lexer lemmas. -/

/-- A whitespace character at the head of the input (outside a digit run)
is consumed without emitting a token. -/
theorem tokAux_ws (c : Char) (cs : List Char) (h : c.isWhitespace = true) :
    tokAux (c :: cs) none = tokAux cs none := by
  have hc : c = ' ' ∨ c = '\t' ∨ c = '\r' ∨ c = '\n' := by
    simp only [Char.isWhitespace, Bool.or_eq_true, decide_eq_true_eq] at h
    tauto
  rcases hc with rfl | rfl | rfl | rfl <;> rfl

theorem digitVal_nonneg (c : Char) : 0 ≤ digitVal c :=
  Int.natCast_nonneg _

/-- Inside a digit run over an all-digit remainder, the scanner
accumulates every digit with the wrapping `i32` step and emits a single
`Number` token. -/
theorem tokAux_digits : ∀ (cs : List Char) (v : Int),
    (∀ c ∈ cs, c.isDigit = true) →
    tokAux cs (some v) =
      .ok [Token.number
        (cs.foldl (fun a c => wrap32 (a * 10 + digitVal c)) v)] := by
  intro cs
  induction cs with
  | nil => intro v _; rfl
  | cons c rest ih =>
    intro v hall
    have hc : c.isDigit = true := hall c (List.mem_cons_self c rest)
    have hrest : ∀ x ∈ rest, x.isDigit = true := fun x hx =>
      hall x (List.mem_cons_of_mem c hx)
    simp only [tokAux, hc, if_true, List.foldl_cons]
    exact ih (wrap32 (v * 10 + digitVal c)) hrest

theorem wrap32_eq_self (x : Int) (h0 : 0 ≤ x) (h1 : x < 2 ^ 31) :
    wrap32 x = x := by
  have e31 : (2 : Int) ^ 31 = 2147483648 := by norm_num
  have e32 : (2 : Int) ^ 32 = 4294967296 := by norm_num
  have h2 : (x + 2 ^ 31) % 2 ^ 32 = x + 2 ^ 31 :=
    Int.emod_eq_of_lt (by omega) (by omega)
  simp only [wrap32, h2]
  omega

/-- The pure decimal accumulation never decreases below its (nonnegative)
starting accumulator. -/
theorem foldl_decimal_le : ∀ (cs : List Char) (a : Int), 0 ≤ a →
    a ≤ cs.foldl (fun x c => x * 10 + digitVal c) a := by
  intro cs
  induction cs with
  | nil => intro a _; simp
  | cons c rest ih =>
    intro a ha
    have hd : 0 ≤ digitVal c := digitVal_nonneg c
    have ha2 : 0 ≤ a * 10 + digitVal c := by omega
    have := ih (a * 10 + digitVal c) ha2
    simp only [List.foldl_cons]
    omega

/-- While the pure decimal value stays below `2^31`, the wrapping `i32`
accumulation agrees with it. -/
theorem foldl_wrap_eq_pure : ∀ (cs : List Char) (a : Int), 0 ≤ a →
    cs.foldl (fun x c => x * 10 + digitVal c) a < 2 ^ 31 →
    cs.foldl (fun x c => wrap32 (x * 10 + digitVal c)) a =
      cs.foldl (fun x c => x * 10 + digitVal c) a := by
  intro cs
  induction cs with
  | nil => intro a _ _; rfl
  | cons c rest ih =>
    intro a ha hlt
    simp only [List.foldl_cons] at hlt ⊢
    have hd : 0 ≤ digitVal c := digitVal_nonneg c
    have ha2 : 0 ≤ a * 10 + digitVal c := by omega
    have hle := foldl_decimal_le rest (a * 10 + digitVal c) ha2
    have hw : wrap32 (a * 10 + digitVal c) = a * 10 + digitVal c :=
      wrap32_eq_self _ ha2 (by omega)
    rw [hw]
    exact ih _ ha2 hlt

/-- On a nonempty all-digit input whose decimal value fits in an `i32`,
`tokenise` returns exactly one `Number` token holding that value. -/
theorem tokenise_digits (cs : List Char) (hne : cs ≠ [])
    (hdig : ∀ c ∈ cs, c.isDigit = true) (hbound : decimalVal cs < 2 ^ 31) :
    tokenise (String.mk cs) = .ok [Token.number (decimalVal cs)] := by
  cases cs with
  | nil => exact absurd rfl hne
  | cons c rest =>
    have hc : c.isDigit = true := hdig c (List.mem_cons_self c rest)
    have hrest : ∀ x ∈ rest, x.isDigit = true := fun x hx =>
      hdig x (List.mem_cons_of_mem c hx)
    have hd : 0 ≤ digitVal c := digitVal_nonneg c
    have hdec : decimalVal (c :: rest) =
        rest.foldl (fun x ch => x * 10 + digitVal ch) (digitVal c) := by
      simp [decimalVal]
    have hstr : (String.mk (c :: rest)).toList = c :: rest := rfl
    simp only [tokenise, hstr, tokAux, hc, if_true]
    rw [tokAux_digits rest (digitVal c) hrest,
      foldl_wrap_eq_pure rest (digitVal c) hd (hdec ▸ hbound), ← hdec]

/-- Every lexer abort is a `lexicalError` naming the offending character:
the lexer never raises the parser-side failure kinds. -/
theorem tokAux_error_lexical : ∀ (cs : List Char) (acc : Option Int)
    (e : PanicKind), tokAux cs acc = .error e → ∃ ch, e = .lexicalError ch := by
  intro cs
  induction cs with
  | nil =>
    intro acc e h
    cases acc <;> simp [tokAux] at h
  | cons c rest ih =>
    intro acc e h
    by_cases hdig : c.isDigit
    · simp only [tokAux, hdig, if_true] at h
      exact ih _ e h
    · have hconsume : ∀ (tl : Except PanicKind (List Token)) (f : List Token → List Token),
          (f <$> tl) = .error e → tl = .error e := by
        intro tl f hmap
        cases tl with
        | ok ts =>
          have h4 : (Except.ok (f ts) : Except PanicKind (List Token)) =
              .error e := hmap
          simp at h4
        | error e2 =>
          have h4 : (Except.error e2 : Except PanicKind (List Token)) =
              .error e := hmap
          exact h4
      have htail : ∀ (res : Except PanicKind (List Token)),
          (match acc with
            | some v => (fun ts => Token.number v :: ts) <$> res
            | none => res) = .error e → res = .error e := by
        intro res hres
        cases acc with
        | none => exact hres
        | some v => exact hconsume res _ hres
      simp only [tokAux, hdig, if_false] at h
      have h2 := htail _ h
      split_ifs at h2 with h3 h4 h5 h6 h7 h8 h9
      · exact ih none e (hconsume _ _ h2)
      · exact ih none e (hconsume _ _ h2)
      · exact ih none e (hconsume _ _ h2)
      · exact ih none e (hconsume _ _ h2)
      · exact ih none e (hconsume _ _ h2)
      · exact ih none e (hconsume _ _ h2)
      · exact ih none e h2
      · simp only [Except.error.injEq] at h2
        exact ⟨c, h2.symm⟩

/-! Renderer lemmas. -/

theorem dash_literal (s : String) :
    ("- " : String) ++ (("Literal(" : String) ++ s) =
      ("- Literal(" : String) ++ s := by
  rw [← String.append_assoc]
  rfl

theorem dash_binop (s : String) :
    ("- " : String) ++ (("BinOp(" : String) ++ s) =
      ("- BinOp(" : String) ++ s := by
  rw [← String.append_assoc]
  rfl

/-- `visualise_ast` emits exactly the pre-order traversal of the tree,
one line per node, each line being the depth marker `"|   "` repeated
`depth` times, then `"- "`, then the node label. -/
theorem visualise_ast_preorder : ∀ (n : Node) (d : Nat),
    visualise_ast n d = (preorderDepths n d).map
      (fun p => repeatStr "|   " p.2 ++ ("- " ++ nodeLabel p.1)) := by
  intro n
  induction n with
  | literal v =>
    intro d
    simp only [visualise_ast, preorderDepths, List.map_cons, List.map_nil,
      nodeLabel, String.append_assoc]
    rw [dash_literal]
  | binOp op l r ihl ihr =>
    intro d
    simp only [visualise_ast, preorderDepths, List.map_cons, List.map_append,
      nodeLabel, String.append_assoc, ihl, ihr]
    rw [dash_binop]

/-! Canonical-fuel corollaries. -/

theorem parse_expression_ne_outOfFuel (tokens : List Token) (index : Nat) :
    parse_expression tokens index ≠ .outOfFuel := by
  apply parseRun_fuel_sufficient
  simp only [callFuel, fuelFor]
  omega

theorem parse_term_ne_outOfFuel (tokens : List Token) (index : Nat) :
    parse_term tokens index ≠ .outOfFuel := by
  apply parseRun_fuel_sufficient
  simp only [callFuel, fuelFor]
  omega

theorem parse_factor_ne_outOfFuel (tokens : List Token) (index : Nat) :
    parse_factor tokens index ≠ .outOfFuel := by
  apply parseRun_fuel_sufficient
  simp only [callFuel, fuelFor]
  omega

/-- `build_ast` can never abort with the `Expected ')'` failure: the
lexer only raises `lexicalError`, and the parser never reaches its
`unterminatedGroup` branch. -/
theorem build_ast_no_unterminatedGroup (input : String) :
    build_ast input ≠ .error .unterminatedGroup := by
  intro hcontra
  simp only [build_ast] at hcontra
  cases htok : tokenise input with
  | error e =>
    simp only [htok] at hcontra
    obtain ⟨ch, rfl⟩ := tokAux_error_lexical input.toList none e htok
    simp at hcontra
  | ok tokens =>
    simp only [htok] at hcontra
    cases hp : parse_expression tokens 0 with
    | ok node next => simp [hp] at hcontra
    | outOfFuel => simp [hp] at hcontra
    | err e =>
      simp only [hp, Except.error.injEq] at hcontra
      subst hcontra
      exact parseRun_no_unterminatedGroup (fuelFor tokens) tokens (.expr 0) hp

/-! The claims. -/

/-- C1: mixing multiplication/division with addition/subtraction at the
same nesting level always makes the addition/subtraction the outer
`BinOp` node: concretely `build_ast "2+3*4"` is
`BinOp(Add, Literal(2), BinOp(Multiply, Literal(3), Literal(4)))`, and in
general a successful `parse_expression` result with a Multiply/Divide
root is exactly the result of the single initial `parse_term` call — no
expression-level fold (which is what consumes `+`/`-` at this level)
produced it. -/
theorem claim_C1 :
    build_ast "2+3*4" =
      .ok (.binOp .add (.literal 2)
        (.binOp .multiply (.literal 3) (.literal 4))) ∧
    ∀ (fuel : Nat) (tokens : List Token) (index : Nat) (n : Node) (j : Nat),
      parseExpressionF (fuel + 1) tokens index = .ok n j →
      isMulDivRoot n = true →
      parseTermF fuel tokens index = .ok n j :=
  ⟨rfl, fun fuel tokens index n j h hroot =>
    parseExpression_mulDivRoot fuel tokens index n j h hroot⟩

theorem claim_C1_witness :
    parseTermF 11 [Token.number 2, Token.operator .multiply, Token.number 3]
      0 = .ok (.binOp .multiply (.literal 2) (.literal 3)) 3 :=
  claim_C1.2 11 [Token.number 2, Token.operator .multiply, Token.number 3] 0
    (.binOp .multiply (.literal 2) (.literal 3)) 3 rfl rfl

/-- C2: all binary operators are left-associative: concretely
`build_ast "8-3-2"` is
`BinOp(Subtract, BinOp(Subtract, Literal(8), Literal(3)), Literal(2))`,
and in general `parse_expression` on any chain of literals joined by
equal-precedence operators (all `+`/`-`, or all `*`/`/`) returns the
left-associated fold of the chain. -/
theorem claim_C2 :
    build_ast "8-3-2" =
      .ok (.binOp .subtract (.binOp .subtract (.literal 8) (.literal 3))
        (.literal 2)) ∧
    (∀ (v : Int) (ps : List (Operation × Int)),
      (∀ q ∈ ps, q.1 = Operation.add ∨ q.1 = Operation.subtract) →
      parse_expression (chainTokens v ps) 0 =
        .ok (chainFold v ps) (chainTokens v ps).length) ∧
    (∀ (v : Int) (ps : List (Operation × Int)),
      (∀ q ∈ ps, q.1 = Operation.multiply ∨ q.1 = Operation.divide) →
      parse_expression (chainTokens v ps) 0 =
        .ok (chainFold v ps) (chainTokens v ps).length) :=
  ⟨rfl, parseExpression_chain_addsub, parseExpression_chain_muldiv⟩

theorem claim_C2_witness :
    parse_expression
      (chainTokens 8 [(Operation.subtract, 3), (Operation.subtract, 2)]) 0 =
      .ok (chainFold 8 [(Operation.subtract, 3), (Operation.subtract, 2)])
        (chainTokens 8
          [(Operation.subtract, 3), (Operation.subtract, 2)]).length :=
  claim_C2.2.1 8 [(Operation.subtract, 3), (Operation.subtract, 2)]
    (by decide)

/-- C3: a parenthesized sub-expression is parsed as a single atom at
factor level, so grouping overrides precedence: concretely
`build_ast "(2+3)*4"` is
`BinOp(Multiply, BinOp(Add, Literal(2), Literal(3)), Literal(4))`, and in
general when `parse_factor` sees `LeftParen`, parses the inner expression
and finds `RightParen`, it returns the inner expression node unchanged,
one position past the `RightParen`. -/
theorem claim_C3 :
    build_ast "(2+3)*4" =
      .ok (.binOp .multiply (.binOp .add (.literal 2) (.literal 3))
        (.literal 4)) ∧
    ∀ (fuel : Nat) (tokens : List Token) (index : Nat) (n : Node) (j : Nat),
      tokens[index]? = some .leftParen →
      parseExpressionF fuel tokens (index + 1) = .ok n j →
      tokens[j]? = some .rightParen →
      parseFactorF (fuel + 1) tokens index = .ok n (j + 1) := by
  refine ⟨rfl, ?_⟩
  intro fuel tokens index n j hlp hinner hrp
  have hinner2 : parseRun fuel tokens (.expr (index + 1)) = .ok n j := hinner
  show parseRun (fuel + 1) tokens (.factor index) = .ok n (j + 1)
  rw [parseRun_factor_unfold, hlp]
  show (match parseRun fuel tokens (.expr (index + 1)) with
    | PResult.ok node next =>
      match tokens[next]? with
      | some Token.rightParen => PResult.ok node (next + 1)
      | some _ => PResult.err .unterminatedGroup
      | none => PResult.err .positionOutOfRange
    | r => r) = PResult.ok n (j + 1)
  rw [hinner2]
  show (match tokens[j]? with
    | some Token.rightParen => PResult.ok n (j + 1)
    | some _ => PResult.err .unterminatedGroup
    | none => PResult.err .positionOutOfRange) = PResult.ok n (j + 1)
  rw [hrp]

theorem claim_C3_witness :
    parseFactorF 10 [Token.leftParen, Token.number 1, Token.rightParen] 0 =
      .ok (.literal 1) 3 :=
  claim_C3.2 9 [Token.leftParen, Token.number 1, Token.rightParen] 0
    (.literal 1) 2 rfl rfl rfl

/-- C4: for some inputs holding a stray top-level `RightParen` followed
by further tokens — `"1)"` and `"1+2)*3"` — `build_ast` succeeds and
returns only the leading expression, because `parse_expression` stops at
the `RightParen` and `build_ast` discards the returned position, so the
remaining tokens are silently dropped and no error is raised. -/
theorem claim_C4 :
    build_ast "1)" = .ok (.literal 1) ∧
    build_ast "1+2)*3" = .ok (.binOp .add (.literal 1) (.literal 2)) ∧
    parse_expression [Token.number 1, Token.rightParen] 0 =
      .ok (.literal 1) 1 :=
  ⟨rfl, rfl, rfl⟩

/-- C5 (counterexample): `build_ast "(1+2"` does not fail with the
`Expected ')'` failure (`unterminatedGroup`) the claim names — it fails
with `positionOutOfRange`, an out-of-bounds index into the token
sequence. -/
theorem claim_C5_counterexample :
    build_ast "(1+2" = .error .positionOutOfRange ∧
    build_ast "(1+2" ≠ .error .unterminatedGroup :=
  ⟨rfl, by decide⟩

/-- C5 (amended): an unmatched left parenthesis makes parsing fail with
no AST, but with `positionOutOfRange` — reading past the end of the
token sequence — never with the `expected closing parenthesis`
(`unterminatedGroup`) failure, which is unreachable on every input:
`parse_expression` only returns at end of input or at a `RightParen`, so
the mismatch arm of `parse_factor` is dead code.  Concretely,
`build_ast "(1+2"` fails with `positionOutOfRange`. -/
theorem claim_C5_amended :
    build_ast "(1+2" = .error .positionOutOfRange ∧
    (∀ input : String, build_ast input ≠ .error .unterminatedGroup) ∧
    (∀ (fuel : Nat) (tokens : List Token) (index : Nat),
      parseFactorF fuel tokens index ≠ .err .unterminatedGroup ∧
      parseExpressionF fuel tokens index ≠ .err .unterminatedGroup ∧
      parseTermF fuel tokens index ≠ .err .unterminatedGroup) :=
  ⟨rfl, build_ast_no_unterminatedGroup, fun fuel tokens index =>
    ⟨parseRun_no_unterminatedGroup fuel tokens (.factor index),
     parseRun_no_unterminatedGroup fuel tokens (.expr index),
     parseRun_no_unterminatedGroup fuel tokens (.term index)⟩⟩

theorem claim_C5_witness :
    (build_ast "(1+2" = Except.error PanicKind.unterminatedGroup) = False :=
  eq_false (claim_C5_amended.2.1 "(1+2")

/-- C6 (counterexample): on the all-digit input `"2147483648"` (one more
than the largest `i32`), `tokenise` returns a single `Number` token, but
its value is the wrapped `-2147483648`, not the decimal value
`2147483648` of the string, so the token value does not equal the
decimal integer value of every digit string. -/
theorem claim_C6_counterexample :
    tokenise "2147483648" = .ok [Token.number (-2147483648)] ∧
    decimalVal "2147483648".toList = 2147483648 ∧
    tokenise "2147483648" ≠
      .ok [Token.number (decimalVal "2147483648".toList)] :=
  ⟨rfl, rfl, by decide⟩

/-- C6 (amended): for every nonempty input composed solely of ASCII
decimal digits whose decimal value (by left-to-right positional
accumulation `value = value*10 + digit`) is below `2^31`, `tokenise`
returns exactly one token, `Number(v)`, with `v` equal to that decimal
value; beyond `2^31` the `i32` accumulator wraps.  Concretely
`tokenise "042" = [Number(42)]`. -/
theorem claim_C6_amended :
    (∀ (cs : List Char), cs ≠ [] → (∀ c ∈ cs, c.isDigit = true) →
      decimalVal cs < 2 ^ 31 →
      tokenise (String.mk cs) = .ok [Token.number (decimalVal cs)]) ∧
    tokenise "042" = .ok [Token.number 42] :=
  ⟨tokenise_digits, rfl⟩

theorem claim_C6_witness :
    tokenise (String.mk ['0', '4', '2']) =
      .ok [Token.number (decimalVal ['0', '4', '2'])] :=
  claim_C6_amended.1 ['0', '4', '2'] (by decide) (by decide) (by decide)

/-- C7: empty input tokenises to the empty token sequence, and parsing
it fails (`positionOutOfRange`: `parse_factor` indexes past the end) with
no AST; likewise `"1+"` fails where an atom was expected, again by
reading past the end of the token sequence. -/
theorem claim_C7 :
    tokenise "" = .ok [] ∧
    build_ast "" = .error .positionOutOfRange ∧
    build_ast "1+" = .error .positionOutOfRange :=
  ⟨rfl, rfl, rfl⟩

/-- C8: whitespace characters are consumed by the lexer without emitting
tokens — a whitespace character at the head of the remaining input
(outside a digit run) leaves the token sequence unchanged — so
`build_ast " 1 + 2 "` and `build_ast "1+2"` return structurally
identical ASTs. -/
theorem claim_C8 :
    (∀ (c : Char) (cs : List Char), c.isWhitespace = true →
      tokAux (c :: cs) none = tokAux cs none) ∧
    build_ast " 1 + 2 " = build_ast "1+2" ∧
    build_ast "1+2" = .ok (.binOp .add (.literal 1) (.literal 2)) :=
  ⟨tokAux_ws, rfl, rfl⟩

theorem claim_C8_witness :
    tokAux [' ', '1'] none = tokAux ['1'] none :=
  claim_C8.1 ' ' ['1'] rfl

/-- C9 (counterexample): the line `visualise_ast` emits for `Literal(5)`
at depth 0 is `"- Literal(5)"`, not the depth markers followed directly
by the node label `"Literal(5)"`: each line carries a `"- "` between the
markers and the label, which the claim's line format omits. -/
theorem claim_C9_counterexample :
    visualise_ast (.literal 5) 0 = ["- Literal(5)"] ∧
    visualise_ast (.literal 5) 0 ≠
      [repeatStr "|   " 0 ++ nodeLabel (.literal 5)] :=
  ⟨rfl, by decide⟩

/-- C9 (amended): rendering an AST emits exactly one line per node in
pre-order (node before children, left child before right child), where
each line at nesting depth `d` consists of the marker `"|   "` repeated
`d` times, then `"- "`, then the node label — `Literal(<value>)` for a
leaf or `BinOp(<OperatorName>)` for an internal node. -/
theorem claim_C9_amended : ∀ (n : Node) (d : Nat),
    visualise_ast n d = (preorderDepths n d).map
      (fun p => repeatStr "|   " p.2 ++ ("- " ++ nodeLabel p.1)) :=
  visualise_ast_preorder

/-- C10: parsing terminates on every finite token sequence: a successful
`parse_factor`, `parse_term` or `parse_expression` strictly advances the
token position (and never moves past the end), and at the canonical fuel
`3 * tokens.length + 3` none of the three parser levels ever exhausts
its fuel — the recursion is total wherever it does not fail. -/
theorem claim_C10 :
    (∀ (fuel : Nat) (tokens : List Token) (index : Nat) (n : Node) (j : Nat),
      parseFactorF fuel tokens index = .ok n j →
      index < j ∧ j ≤ tokens.length) ∧
    (∀ (fuel : Nat) (tokens : List Token) (index : Nat) (n : Node) (j : Nat),
      parseTermF fuel tokens index = .ok n j →
      index < j ∧ j ≤ tokens.length) ∧
    (∀ (fuel : Nat) (tokens : List Token) (index : Nat) (n : Node) (j : Nat),
      parseExpressionF fuel tokens index = .ok n j →
      index < j ∧ j ≤ tokens.length) ∧
    (∀ (tokens : List Token) (index : Nat),
      parse_expression tokens index ≠ .outOfFuel ∧
      parse_term tokens index ≠ .outOfFuel ∧
      parse_factor tokens index ≠ .outOfFuel) := by
  refine ⟨?_, ?_, ?_, ?_⟩
  · intro fuel tokens index n j h
    exact parseRun_progress fuel tokens (.factor index) n j h
  · intro fuel tokens index n j h
    exact parseRun_progress fuel tokens (.term index) n j h
  · intro fuel tokens index n j h
    exact parseRun_progress fuel tokens (.expr index) n j h
  · intro tokens index
    exact ⟨parse_expression_ne_outOfFuel tokens index,
      parse_term_ne_outOfFuel tokens index,
      parse_factor_ne_outOfFuel tokens index⟩

theorem claim_C10_witness : 0 < 1 ∧ 1 ≤ [Token.number 7].length :=
  claim_C10.1 2 [Token.number 7] 0 (.literal 7) 1 rfl

end SimpleAst
